import Mathlib

/-!
Verification development for the spherical-harmonic diffusion-modelling module
(reconst/shm.py).  The Python functions are shallowly embedded: integer and
array arithmetic is modelled exactly (Int / Nat / Rat, and Real where the
source applies logarithms and square roots), numpy arrays become lists or
Fin-indexed functions, numpy matrices become Mathlib matrices, and fallible
functions return Option or Except.  The library pseudo-inverse (numpy.linalg.pinv)
is not part of the source; it is specified by the four Penrose conditions,
which characterise it uniquely.
-/

open Matrix

namespace Dipy

/-! ### numpy primitives used by the source -/

/-- Model of numpy arange(start, stop, step) for a positive step (the source
only calls arange with steps 1 and 2).  The element count is
ceil((stop - start) / step), written with integer division. -/
def np_arange (start stop step : Int) : List Int :=
  (List.range ((stop - start + step - 1) / step).toNat).map fun i : Nat => start + step * (i : Int)

/-- Model of numpy clip(x, lo, hi): the lower bound is applied first, then the
upper bound, exactly as numpy computes minimum(maximum(x, lo), hi). -/
def np_clip {α : Type} [LinearOrder α] (x lo hi : α) : α :=
  min (max x lo) hi

/-- Model of numpy diff on a 1-d array: out i = l (i+1) - l i. -/
def np_diff (l : List Int) : List Int :=
  List.zipWith (fun x y => y - x) l l.tail

/-- Model of numpy unique on a 1-d integer array: the sorted list of distinct
values. -/
def np_unique (l : List Int) : List Int :=
  (l.insertionSort (· ≤ ·)).dedup

/-! ### sph_harm_ind_list -/

/-- Embedding of sph_harm_ind_list.  The source raises ValueError when
sh_order % 2 != 0 (modelled as none; Python % on a positive modulus agrees
with Int.emod).  Otherwise n_range = arange(0, sh_order+1, 2),
n_list = repeat(n_range, 2*n_range+1), and m_list is a buffer of size
(sh_order+2)*(sh_order+1)/2 filled by consecutive slice assignments of
arange(-n, n+1) for n in n_range; the consecutive writes are modelled as
concatenation, and the length theorem below certifies that for non-negative
even orders the buffer is exactly filled.  For negative even orders at most
-4 the real function returns an uninitialized buffer of positive size while
this model returns empty lists; the theorems about negative orders therefore
only assert errorhood (no exception is raised), which the model captures
faithfully, plus the concrete value at -2, where the buffer size is 0 and the
model is exact. -/
def sph_harm_ind_list (shOrder : Int) : Option (List Int × List Int) :=
  if shOrder % 2 ≠ 0 then none
  else
    let nRange := np_arange 0 (shOrder + 1) 2
    let nList := nRange.flatMap fun n => List.replicate (2 * n + 1).toNat n
    let mList := nRange.flatMap fun n => np_arange (-n) (n + 1) 1
    some (mList, nList)

/-! ### basic facts about np_arange -/

lemma np_arange_one (a b : Int) :
    np_arange a b 1 = (List.range (b - a).toNat).map fun i : Nat => a + (i : Int) := by
  unfold np_arange
  have h : b - a + 1 - 1 = b - a := by ring
  rw [h, Int.ediv_one]
  exact List.map_congr_left fun i _ => by ring

lemma np_arange_one_length (a b : Int) : (np_arange a b 1).length = (b - a).toNat := by
  rw [np_arange_one]; simp

lemma mem_np_arange_one {a b x : Int} : x ∈ np_arange a b 1 ↔ a ≤ x ∧ x < b := by
  rw [np_arange_one]
  simp only [List.mem_map, List.mem_range]
  constructor
  · rintro ⟨i, hi, rfl⟩; omega
  · intro h; exact ⟨(x - a).toNat, by omega, by omega⟩

lemma np_arange_even (k : Nat) :
    np_arange 0 (2 * (k : Int) + 1) 2 = (List.range (k + 1)).map fun i : Nat => (2 * (i : Int)) := by
  unfold np_arange
  have h : ((2 * (k : Int) + 1 - 0 + 2 - 1) / 2).toNat = k + 1 := by omega
  rw [h]
  exact List.map_congr_left fun i _ => by ring

lemma np_arange_neg_empty {s : Int} (h : s ≤ -1) : np_arange 0 (s + 1) 2 = [] := by
  unfold np_arange
  have h0 : ((s + 1 - 0 + 2 - 1) / 2).toNat = 0 := by omega
  rw [h0]; rfl

/-! ### zip and flatMap infrastructure for the index-pair list -/

lemma zip_flatMap {α β γ : Type} (l : List α) (f : α → List β) (g : α → List γ)
    (h : ∀ x ∈ l, (f x).length = (g x).length) :
    (l.flatMap f).zip (l.flatMap g) = l.flatMap fun x => (f x).zip (g x) := by
  induction l with
  | nil => rfl
  | cons a t ih =>
    simp only [List.flatMap_cons]
    rw [List.zip_append (h a (List.mem_cons_self a t)),
      ih fun x hx => h x (List.mem_cons_of_mem a hx)]

lemma zip_replicate_right {α β : Type} (l : List α) (a : β) :
    l.zip (List.replicate l.length a) = l.map fun x => (x, a) := by
  induction l with
  | nil => rfl
  | cons b t ih => simp [List.replicate_succ, ih]

lemma sum_four_mul_add_one (r : Nat) :
    ((List.range r).map fun i => 4 * i + 1).sum + r = 2 * r * r := by
  induction r with
  | zero => rfl
  | succ r ih =>
    rw [List.range_succ, List.map_append, List.sum_append]
    simp only [List.map_cons, List.map_nil, List.sum_cons, List.sum_nil]
    have h2 : ((List.range r).map fun i => 4 * i + 1).sum + (4 * r + 1 + 0) + (r + 1)
        = (((List.range r).map fun i => 4 * i + 1).sum + r) + (4 * r + 2) := by omega
    rw [h2, ih]; ring

/-! ### structure of the index-pair list for an even non-negative order -/

/-- The even degrees 0, 2, ..., 2k produced by arange(0, 2k+1, 2). -/
def nRangeOf (k : Nat) : List Int :=
  (List.range (k + 1)).map fun i : Nat => (2 * (i : Int))

/-- The (order, degree) pairs in the order the source emits them. -/
def shPairs (k : Nat) : List (Int × Int) :=
  (nRangeOf k).flatMap fun n => (np_arange (-n) (n + 1) 1).map fun m => (m, n)

lemma mem_nRangeOf {k : Nat} {x : Int} :
    x ∈ nRangeOf k ↔ 0 ≤ x ∧ x ≤ 2 * (k : Int) ∧ x % 2 = 0 := by
  simp only [nRangeOf, List.mem_map, List.mem_range]
  constructor
  · rintro ⟨i, hi, rfl⟩; omega
  · intro h; exact ⟨(x / 2).toNat, by omega, by omega⟩

lemma sph_harm_ind_list_even_eq (k : Nat) :
    sph_harm_ind_list (2 * (k : Int)) = some
      ((nRangeOf k).flatMap fun n => np_arange (-n) (n + 1) 1,
       (nRangeOf k).flatMap fun n => List.replicate (2 * n + 1).toNat n) := by
  unfold sph_harm_ind_list
  have h2 : ¬ (2 * (k : Int)) % 2 ≠ 0 := by omega
  rw [if_neg h2]
  have hr : np_arange 0 (2 * (k : Int) + 1) 2 = nRangeOf k := np_arange_even k
  rw [hr]

lemma zip_shPairs (k : Nat) :
    (((nRangeOf k).flatMap fun n => np_arange (-n) (n + 1) 1).zip
      ((nRangeOf k).flatMap fun n => List.replicate (2 * n + 1).toNat n)) = shPairs k := by
  rw [zip_flatMap]
  · apply List.flatMap_congr
    intro n hn
    have hn0 : 0 ≤ n := (mem_nRangeOf.mp hn).1
    have hlen : (2 * n + 1).toNat = (np_arange (-n) (n + 1) 1).length := by
      rw [np_arange_one_length]; omega
    rw [hlen, zip_replicate_right]
  · intro n hn
    have hn0 : 0 ≤ n := (mem_nRangeOf.mp hn).1
    rw [np_arange_one_length, List.length_replicate]
    omega

lemma length_flatMap_segments (k : Nat) (f : Int → List Int)
    (hf : ∀ n ∈ nRangeOf k, (f n).length = (2 * n + 1).toNat) :
    ((nRangeOf k).flatMap f).length = (2 * k + 1) * (k + 1) := by
  rw [List.length_flatMap]
  have h1 : List.map (List.length ∘ f) (nRangeOf k)
      = (List.range (k + 1)).map fun i : Nat => 4 * i + 1 := by
    unfold nRangeOf
    rw [List.map_map]
    apply List.map_congr_left
    intro i hi
    have hik : i < k + 1 := List.mem_range.mp hi
    have : (f (2 * (i : Int))).length = (2 * (2 * (i : Int)) + 1).toNat :=
      hf _ (mem_nRangeOf.mpr (by omega))
    simp only [Function.comp_apply, this]
    omega
  rw [h1]
  have hS := sum_four_mul_add_one (k + 1)
  have hB : (2 * k + 1) * (k + 1) + (k + 1) = 2 * (k + 1) * (k + 1) := by ring
  linarith

lemma np_arange_one_pairwise (a b : Int) : (np_arange a b 1).Pairwise (· < ·) := by
  rw [np_arange_one]
  exact (List.pairwise_lt_range _).map _ fun x y h => by omega

lemma nRangeOf_pairwise (k : Nat) : (nRangeOf k).Pairwise (· < ·) :=
  (List.pairwise_lt_range _).map _ fun x y h => by omega

lemma shPairs_pairwise (k : Nat) :
    (shPairs k).Pairwise fun p q : Int × Int => p.2 < q.2 ∨ (p.2 = q.2 ∧ p.1 < q.1) := by
  unfold shPairs
  rw [List.pairwise_flatMap]
  constructor
  · intro n _
    exact (np_arange_one_pairwise (-n) (n + 1)).map _ fun x y h => Or.inr ⟨rfl, h⟩
  · refine (nRangeOf_pairwise k).imp ?_
    intro n1 n2 h x hx y hy
    obtain ⟨m1, _, rfl⟩ := List.mem_map.mp hx
    obtain ⟨m2, _, rfl⟩ := List.mem_map.mp hy
    exact Or.inl h

lemma shPairs_mem_bounds (k : Nat) {p : Int × Int} (hp : p ∈ shPairs k) :
    |p.1| ≤ p.2 ∧ p.2 ≤ 2 * (k : Int) ∧ p.2 % 2 = 0 := by
  obtain ⟨n, hn, hseg⟩ := List.mem_flatMap.mp hp
  obtain ⟨m, hm, rfl⟩ := List.mem_map.mp hseg
  obtain ⟨hmlo, hmhi⟩ := mem_np_arange_one.mp hm
  obtain ⟨h0, h2k, hev⟩ := mem_nRangeOf.mp hn
  exact ⟨abs_le.mpr ⟨by omega, by omega⟩, h2k, hev⟩

lemma shPairs_complete (k : Nat) {mm nn : Int} (habs : |mm| ≤ nn) (hle : nn ≤ 2 * (k : Int))
    (hev : nn % 2 = 0) : (mm, nn) ∈ shPairs k := by
  have h0 : 0 ≤ nn := le_trans (abs_nonneg mm) habs
  obtain ⟨hlo, hhi⟩ := abs_le.mp habs
  refine List.mem_flatMap.mpr ⟨nn, mem_nRangeOf.mpr ⟨h0, hle, hev⟩, ?_⟩
  exact List.mem_map.mpr ⟨mm, mem_np_arange_one.mpr ⟨by omega, by omega⟩, rfl⟩

lemma ncoef_toNat (k : Nat) :
    ((2 * (k : Int) + 1) * (2 * (k : Int) + 2) / 2).toNat = (2 * k + 1) * (k + 1) := by
  have h : (2 * (k : Int) + 1) * (2 * (k : Int) + 2)
      = 2 * ((2 * (k : Int) + 1) * ((k : Int) + 1)) := by ring
  rw [h, Int.mul_ediv_cancel_left _ (by norm_num)]
  have h2 : (2 * (k : Int) + 1) * ((k : Int) + 1) = (((2 * k + 1) * (k + 1) : Nat) : Int) := by
    push_cast; ring
  rw [h2, Int.toNat_natCast]

/-- C1: for every non-negative even integer L, sph_harm_ind_list L returns two
parallel sequences of length (L+1)(L+2)/2 whose pairs all satisfy
abs m ≤ n ≤ L with n even, listed in increasing degree and, within a degree,
in increasing order from -n to n (strict lexicographic order on
(degree, order) together with completeness pins the enumeration down). -/
theorem sph_harm_ind_list_spec (L : Int) (h0 : 0 ≤ L) (h2 : L % 2 = 0) :
    ∃ ml nl : List Int, sph_harm_ind_list L = some (ml, nl)
      ∧ ml.length = ((L + 1) * (L + 2) / 2).toNat
      ∧ nl.length = ((L + 1) * (L + 2) / 2).toNat
      ∧ (∀ p ∈ ml.zip nl, |p.1| ≤ p.2 ∧ p.2 ≤ L ∧ p.2 % 2 = 0)
      ∧ (ml.zip nl).Pairwise (fun p q => p.2 < q.2 ∨ (p.2 = q.2 ∧ p.1 < q.1))
      ∧ ∀ mm nn : Int, |mm| ≤ nn → nn ≤ L → nn % 2 = 0 → (mm, nn) ∈ ml.zip nl := by
  obtain ⟨k, rfl⟩ : ∃ k : Nat, L = 2 * (k : Int) := ⟨(L / 2).toNat, by omega⟩
  refine ⟨_, _, sph_harm_ind_list_even_eq k, ?_, ?_, ?_, ?_, ?_⟩
  · rw [length_flatMap_segments k _ fun n hn => by
      rw [np_arange_one_length]
      have := (mem_nRangeOf.mp hn).1
      omega]
    exact (ncoef_toNat k).symm
  · rw [length_flatMap_segments k _ fun n hn => List.length_replicate _ _]
    exact (ncoef_toNat k).symm
  · rw [zip_shPairs]
    exact fun p hp => shPairs_mem_bounds k hp
  · rw [zip_shPairs]
    exact shPairs_pairwise k
  · rw [zip_shPairs]
    exact fun mm nn habs hle hev => shPairs_complete k habs hle hev

/-- Witness for sph_harm_ind_list_spec at the concrete order L = 2. -/
theorem sph_harm_ind_list_spec_witness :
    (0 : Int) ≤ 2 ∧ (2 : Int) % 2 = 0 ∧
    ∃ ml nl : List Int, sph_harm_ind_list 2 = some (ml, nl)
      ∧ ml.length = (((2 : Int) + 1) * ((2 : Int) + 2) / 2).toNat
      ∧ nl.length = (((2 : Int) + 1) * ((2 : Int) + 2) / 2).toNat
      ∧ (∀ p ∈ ml.zip nl, |p.1| ≤ p.2 ∧ p.2 ≤ 2 ∧ p.2 % 2 = 0)
      ∧ (ml.zip nl).Pairwise (fun p q => p.2 < q.2 ∨ (p.2 = q.2 ∧ p.1 < q.1))
      ∧ ∀ mm nn : Int, |mm| ≤ nn → nn ≤ 2 → nn % 2 = 0 → (mm, nn) ∈ ml.zip nl :=
  ⟨by decide, by decide, sph_harm_ind_list_spec 2 (by decide) (by decide)⟩

/-- The failing input for C2: the negative even order -2 passes the parity
check (Python -2 % 2 == 0) and sph_harm_ind_list returns an empty pair of
index lists instead of raising the documented ValueError. -/
theorem sph_harm_ind_list_neg_even_counterexample :
    sph_harm_ind_list (-2) = some ([], []) := by decide

/-- The error behaviour the code implements: sph_harm_ind_list raises exactly
when sh_order is odd; a negative even sh_order ducks the parity check and the
function returns a (possibly garbage) result without raising, contradicting
its own error message "sh_order must be an even integer >= 0". -/
theorem sph_harm_ind_list_error_iff (s : Int) :
    (sph_harm_ind_list s = none ↔ s % 2 ≠ 0)
    ∧ (s < 0 → s % 2 = 0 → ∃ p, sph_harm_ind_list s = some p) := by
  constructor
  · unfold sph_harm_ind_list
    by_cases h : s % 2 ≠ 0
    · rw [if_pos h]; simp [h]
    · rw [if_neg h]; simp [h]
  · intro hneg hev
    unfold sph_harm_ind_list
    rw [if_neg (by omega)]
    exact ⟨_, rfl⟩

/-- Witness for sph_harm_ind_list_error_iff: the odd order 3 errors, and the
negative even order -4 returns without error. -/
theorem sph_harm_ind_list_error_iff_witness :
    sph_harm_ind_list 3 = none ∧ ∃ p, sph_harm_ind_list (-4) = some p :=
  ⟨(sph_harm_ind_list_error_iff 3).1.mpr (by decide),
   (sph_harm_ind_list_error_iff (-4)).2 (by decide) (by decide)⟩

/-! ### smooth_pinv and the Moore-Penrose pseudo-inverse -/

/-- Specification of numpy.linalg.pinv (library code, not part of the source):
P is the Moore-Penrose pseudo-inverse of M when the four Penrose conditions
hold.  Over the reals the conjugate transpose is the plain transpose.  The
conditions determine P uniquely (penroseInv_unique below). -/
def penroseInv {a b : Type} [Fintype a] [Fintype b] {α : Type} [CommRing α]
    (M : Matrix a b α) (P : Matrix b a α) : Prop :=
  M * P * M = M ∧ P * M * P = P ∧ (M * P)ᵀ = M * P ∧ (P * M)ᵀ = P * M

lemma penroseInv_unique {a b α : Type} [Fintype a] [Fintype b] [CommRing α]
    {M : Matrix a b α} {P Q : Matrix b a α}
    (hP : penroseInv M P) (hQ : penroseInv M Q) : P = Q := by
  obtain ⟨hP1, hP2, hP3, hP4⟩ := hP
  obtain ⟨hQ1, hQ2, hQ3, hQ4⟩ := hQ
  have hPMQ : P = P * M * Q := by
    calc P = P * (M * P) := by rw [← Matrix.mul_assoc]; exact hP2.symm
    _ = P * (Pᵀ * Mᵀ) := by rw [← Matrix.transpose_mul M P, hP3]
    _ = P * (Pᵀ * (M * Q * M)ᵀ) := by rw [hQ1]
    _ = P * (Pᵀ * (Mᵀ * (M * Q)ᵀ)) := by rw [← Matrix.transpose_mul (M * Q) M]
    _ = P * (Pᵀ * Mᵀ) * (M * Q)ᵀ := by simp only [Matrix.mul_assoc]
    _ = P * (M * P) * (M * Q)ᵀ := by rw [← Matrix.transpose_mul M P, hP3]
    _ = P * (M * Q)ᵀ := by rw [← Matrix.mul_assoc, hP2]
    _ = P * (M * Q) := by rw [hQ3]
    _ = P * M * Q := by rw [← Matrix.mul_assoc]
  have hQMQ : Q = P * M * Q := by
    calc Q = Q * M * Q := hQ2.symm
    _ = (Q * M)ᵀ * Q := by rw [hQ4]
    _ = Mᵀ * Qᵀ * Q := by rw [Matrix.transpose_mul]
    _ = (M * P * M)ᵀ * Qᵀ * Q := by rw [hP1]
    _ = Mᵀ * (Pᵀ * Mᵀ) * Qᵀ * Q := by rw [Matrix.transpose_mul, Matrix.transpose_mul]
    _ = (P * M)ᵀ * ((Q * M)ᵀ * Q) := by
      rw [Matrix.transpose_mul P M, Matrix.transpose_mul Q M]
      simp only [Matrix.mul_assoc]
    _ = (P * M) * ((Q * M) * Q) := by rw [hP4, hQ4]
    _ = P * M * Q := by rw [hQ2]
  rw [hPMQ, ← hQMQ]

/-- Embedding of the augmented matrix concatenate((B, diag(L))) built inside
smooth_pinv: the rows of B followed by the rows of diag(L). -/
def smooth_pinv_aug {da db : Type} {α : Type} [CommRing α] [DecidableEq db]
    (B : Matrix da db α) (L : db → α) : Matrix (da ⊕ db) db α :=
  fromRows B (Matrix.diagonal L)

/-- Embedding of the final slicing inv[:, :len(B)] in smooth_pinv: keep the
columns of the pseudo-inverse that correspond to the rows of B.  The result
type records the claimed shape columns(B) x rows(B). -/
def smooth_pinv_block {da db : Type} {α : Type} [CommRing α]
    (P : Matrix db (da ⊕ db) α) : Matrix db da α :=
  Matrix.of fun i j => P i (Sum.inl j)

lemma smooth_pinv_block_fromColumns {da db : Type} {α : Type} [CommRing α]
    (Q : Matrix db da α) (Z : Matrix db db α) :
    smooth_pinv_block (fromColumns Q Z) = Q := rfl

lemma penroseInv_one {a : Type} [Fintype a] [DecidableEq a] {α : Type} [CommRing α] :
    penroseInv (1 : Matrix a a α) 1 := by
  refine ⟨?_, ?_, ?_, ?_⟩ <;> simp

/-- If Q is a Moore-Penrose inverse of B, then the block matrix (Q | 0) is a
Moore-Penrose inverse of the zero-smoothing augmented matrix (B over 0). -/
lemma penroseInv_aug_zero {da db : Type} [Fintype da] [Fintype db] [DecidableEq db]
    {α : Type} [CommRing α] {B : Matrix da db α} {Q : Matrix db da α}
    (h : penroseInv B Q) :
    penroseInv (smooth_pinv_aug B 0) (fromColumns Q (0 : Matrix db db α)) := by
  obtain ⟨h1, h2, h3, h4⟩ := h
  have haug : smooth_pinv_aug B 0 = fromRows B (0 : Matrix db db α) := by
    unfold smooth_pinv_aug
    rw [show Matrix.diagonal (0 : db → α) = 0 from Matrix.diagonal_zero]
  rw [haug]
  have hMP : fromRows B (0 : Matrix db db α) * fromColumns Q (0 : Matrix db db α)
      = fromRows (fromColumns (B * Q) (0 : Matrix da db α)) (0 : Matrix db (da ⊕ db) α) := by
    rw [fromRows_mul, mul_fromColumns, Matrix.mul_zero, Matrix.zero_mul]
  have hPM : fromColumns Q (0 : Matrix db db α) * fromRows B (0 : Matrix db db α)
      = Q * B := by
    rw [fromColumns_mul_fromRows, Matrix.zero_mul, add_zero]
  refine ⟨?_, ?_, ?_, ?_⟩
  · rw [hMP, fromRows_mul, fromColumns_mul_fromRows, Matrix.zero_mul, Matrix.zero_mul,
      add_zero, h1]
  · rw [Matrix.mul_assoc, ← Matrix.mul_assoc, hPM, mul_fromColumns, Matrix.mul_zero, h2]
  · rw [hMP, transpose_fromRows, transpose_fromColumns, Matrix.transpose_zero,
      Matrix.transpose_zero, h3,
      show (0 : Matrix (da ⊕ db) db α) = fromRows (0 : Matrix da db α) (0 : Matrix db db α)
        from fromRows_zero.symm,
      show (0 : Matrix db (da ⊕ db) α) = fromColumns (0 : Matrix db da α) (0 : Matrix db db α)
        from fromColumns_zero.symm,
      fromColumns_fromRows_eq_fromBlocks, fromRows_fromColumn_eq_fromBlocks]
  · rw [hPM, h4]

/-- C3: smooth_pinv stacks B on diag(L) and keeps the sub-block of the
pseudo-inverse corresponding to the rows of B (the result type Matrix
(Fin b) (Fin a) records the claimed shape columns(B) x rows(B)); with the
all-zero smoothing vector the returned block equals the ordinary
Moore-Penrose pseudo-inverse of B, here characterised by the Penrose
conditions, which determine it uniquely. -/
theorem smooth_pinv_zero_eq_pinv (a b : Nat) (B : Matrix (Fin a) (Fin b) ℝ)
    (P : Matrix (Fin b) (Fin a ⊕ Fin b) ℝ) (Q : Matrix (Fin b) (Fin a) ℝ)
    (hP : penroseInv (smooth_pinv_aug B 0) P) (hQ : penroseInv B Q) :
    smooth_pinv_block P = Q := by
  rw [penroseInv_unique hP (penroseInv_aug_zero hQ), smooth_pinv_block_fromColumns]

/-- Witness for smooth_pinv_zero_eq_pinv with B the 1 x 1 identity matrix,
whose pseudo-inverse is itself. -/
theorem smooth_pinv_zero_eq_pinv_witness :
    smooth_pinv_block (fromColumns (1 : Matrix (Fin 1) (Fin 1) ℝ) 0) = 1 :=
  smooth_pinv_zero_eq_pinv 1 1 1 (fromColumns 1 0) 1
    (penroseInv_aug_zero penroseInv_one) penroseInv_one

/-! ### CSA and OPDT coefficient formulas -/

/-- Embedding of CsaOdfModel._set_fit_matrix: with invB = smooth_pinv(B,
sqrt(smooth)*L) the stored fit matrix is F*L*invB, where the column vectors F
and L scale the rows of invB. -/
def csa_set_fit_matrix {k d : Nat} {α : Type} [CommRing α]
    (F L : Fin k → α) (invB : Matrix (Fin k) (Fin d) α) : Matrix (Fin k) (Fin d) α :=
  Matrix.of fun i j => F i * L i * invB i j

/-- Embedding of CsaOdfModel._get_shm_coef on one normalized DWI vector: clip
the data to the class constants min = .001 and max = .999, apply
log(-log(.)) elementwise, and multiply by the transpose of the fit matrix.
The logarithm is a parameter so that the definition stays executable; the
claim theorem instantiates it with Real.log. -/
def csa_get_shm_coef {k d : Nat} {α : Type} [Field α] [LinearOrder α]
    (log : α → α) (fitMatrix : Matrix (Fin k) (Fin d) α) (data : Fin d → α) : Fin k → α :=
  Matrix.vecMul (fun s => log (-log (np_clip (data s) (1/1000) (999/1000)))) fitMatrixᵀ

/-- Embedding of OpdtModel._set_fit_matrix: the pair delta_b = F*L*invB and
delta_q = 4*F*invB, both built from the same invB. -/
def opdt_set_fit_matrix {k d : Nat} {α : Type} [CommRing α]
    (F L : Fin k → α) (invB : Matrix (Fin k) (Fin d) α) :
    Matrix (Fin k) (Fin d) α × Matrix (Fin k) (Fin d) α :=
  (Matrix.of fun i j => F i * L i * invB i j, Matrix.of fun i j => 4 * F i * invB i j)

/-- Embedding of _slowadc_formula: with logd = -log(data), the result is
dot(logd*(1.5-logd)*data, delta_q.T) - dot(data, delta_b.T). -/
def slowadc_formula {k d : Nat} {α : Type} [Field α] (log : α → α) (data : Fin d → α)
    (delta_b delta_q : Matrix (Fin k) (Fin d) α) : Fin k → α :=
  fun j => Matrix.vecMul (fun s => -log (data s) * (3/2 - -log (data s)) * data s) delta_qᵀ j
    - Matrix.vecMul data delta_bᵀ j

/-- Embedding of OpdtModel._get_shm_coef: unpack the fit-matrix pair and apply
_slowadc_formula to the DWI data. -/
def opdt_get_shm_coef {k d : Nat} {α : Type} [Field α] (log : α → α) (F L : Fin k → α)
    (invB : Matrix (Fin k) (Fin d) α) (data : Fin d → α) : Fin k → α :=
  slowadc_formula log data (opdt_set_fit_matrix F L invB).1 (opdt_set_fit_matrix F L invB).2

/-- C4: for a CSA model whose invB is the regularized inverse of B with
weights sqrt(smooth)*L (premise hP), the returned coefficients are
log(-log(clip(data, .001, .999))) multiplied by the transpose of the fit
matrix F*L*invB; moreover the clip keeps every value inside [.001, .999], so
the inner logarithm is negative and both logarithms are applied to strictly
positive arguments. -/
theorem csa_coef_spec (k d : Nat) (B : Matrix (Fin d) (Fin k) ℝ) (F L : Fin k → ℝ)
    (smooth : ℝ) (P : Matrix (Fin k) (Fin d ⊕ Fin k) ℝ)
    (hP : penroseInv (smooth_pinv_aug B fun i => Real.sqrt smooth * L i) P)
    (data : Fin d → ℝ) :
    (∀ j, csa_get_shm_coef Real.log (csa_set_fit_matrix F L (smooth_pinv_block P)) data j
        = ∑ s, Real.log (-Real.log (np_clip (data s) (1/1000) (999/1000)))
            * (F j * L j * smooth_pinv_block P j s))
    ∧ ∀ s, (1/1000 : ℝ) ≤ np_clip (data s) (1/1000) (999/1000)
        ∧ np_clip (data s) (1/1000) (999/1000) ≤ 999/1000
        ∧ 0 < -Real.log (np_clip (data s) (1/1000) (999/1000)) := by
  constructor
  · intro j
    simp [csa_get_shm_coef, csa_set_fit_matrix, Matrix.vecMul, Matrix.dotProduct,
      Matrix.transpose_apply, Matrix.of_apply]
  · intro s
    have h1 : (1/1000 : ℝ) ≤ np_clip (data s) (1/1000) (999/1000) := by
      unfold np_clip
      exact le_min (le_max_right _ _) (by norm_num)
    have h2 : np_clip (data s) (1/1000) (999/1000) ≤ 999/1000 := min_le_right _ _
    refine ⟨h1, h2, ?_⟩
    have hlog : Real.log (np_clip (data s) (1/1000) (999/1000)) < 0 :=
      Real.log_neg (by linarith) (by linarith)
    linarith

/-- Shared witness premise: the Penrose conditions for the 1 x 1 identity
design matrix augmented with the weight vector sqrt(0) * 0. -/
lemma penroseInv_aug_sqrt_zero :
    penroseInv (smooth_pinv_aug (1 : Matrix (Fin 1) (Fin 1) ℝ)
      fun i : Fin 1 => Real.sqrt 0 * (0 : ℝ)) (fromColumns 1 0) := by
  have hw : (fun i : Fin 1 => Real.sqrt 0 * (0 : ℝ)) = (0 : Fin 1 → ℝ) := by
    funext i; simp
  rw [hw]
  exact penroseInv_aug_zero penroseInv_one

/-- Witness for csa_coef_spec with the 1 x 1 identity design matrix, zero
smoothing, and the constant signal 1/2. -/
theorem csa_coef_spec_witness :
    (csa_get_shm_coef Real.log
        (csa_set_fit_matrix (fun _ : Fin 1 => (2 : ℝ)) (fun _ => (0 : ℝ))
          (smooth_pinv_block (fromColumns (1 : Matrix (Fin 1) (Fin 1) ℝ) 0)))
        (fun _ => (1 : ℝ)/2) 0
      = ∑ s : Fin 1, Real.log (-Real.log (np_clip ((1 : ℝ)/2) (1/1000) (999/1000)))
          * ((2 : ℝ) * 0 * smooth_pinv_block (fromColumns (1 : Matrix (Fin 1) (Fin 1) ℝ) 0) 0 s))
    ∧ (0 : ℝ) < -Real.log (np_clip ((1 : ℝ)/2) (1/1000) (999/1000)) := by
  have h := csa_coef_spec 1 1 1 (fun _ => 2) (fun _ => 0) 0 (fromColumns 1 0)
    penroseInv_aug_sqrt_zero (fun _ => 1/2)
  exact ⟨h.1 0, (h.2 0).2.2⟩

/-- C5: for an OPDT model whose invB is the regularized inverse of B with
weights sqrt(smooth)*L (premise hP), the returned coefficients are
(logd*(1.5-logd)*data) times delta_q transposed minus data times delta_b
transposed, with logd = -log(data), delta_b = F*L*invB and delta_q =
4*F*invB built from the same invB. -/
theorem opdt_coef_spec (k d : Nat) (B : Matrix (Fin d) (Fin k) ℝ) (F L : Fin k → ℝ)
    (smooth : ℝ) (P : Matrix (Fin k) (Fin d ⊕ Fin k) ℝ)
    (hP : penroseInv (smooth_pinv_aug B fun i => Real.sqrt smooth * L i) P)
    (data : Fin d → ℝ) :
    ∀ j, opdt_get_shm_coef Real.log F L (smooth_pinv_block P) data j
      = (∑ s, (-Real.log (data s) * (3/2 - -Real.log (data s)) * data s)
          * (4 * F j * smooth_pinv_block P j s))
        - ∑ s, data s * (F j * L j * smooth_pinv_block P j s) := by
  intro j
  simp [opdt_get_shm_coef, slowadc_formula, opdt_set_fit_matrix, Matrix.vecMul,
    Matrix.dotProduct, Matrix.transpose_apply, Matrix.of_apply]

/-- Witness for opdt_coef_spec with the 1 x 1 identity design matrix, zero
smoothing, and the constant signal 1/2. -/
theorem opdt_coef_spec_witness :
    opdt_get_shm_coef Real.log (fun _ : Fin 1 => (2 : ℝ)) (fun _ => (0 : ℝ))
        (smooth_pinv_block (fromColumns (1 : Matrix (Fin 1) (Fin 1) ℝ) 0)) (fun _ => (1 : ℝ)/2) 0
      = (∑ s : Fin 1, (-Real.log ((1 : ℝ)/2) * (3/2 - -Real.log ((1 : ℝ)/2)) * ((1 : ℝ)/2))
          * (4 * (2 : ℝ) * smooth_pinv_block (fromColumns (1 : Matrix (Fin 1) (Fin 1) ℝ) 0) 0 s))
        - ∑ s : Fin 1, ((1 : ℝ)/2)
          * ((2 : ℝ) * 0 * smooth_pinv_block (fromColumns (1 : Matrix (Fin 1) (Fin 1) ℝ) 0) 0 s) :=
  opdt_coef_spec 1 1 1 (fun _ => 2) (fun _ => 0) 0 (fromColumns 1 0)
    penroseInv_aug_sqrt_zero (fun _ => 1/2) 0

/-! ### residual bootstrap -/

/-- Embedding of bootstrap_data_array on a 1-d data vector with an explicit
permutation (the source draws a random one only when none is supplied): the
rows of R are permuted and the result is data * (H + R_permuted)^T in one
product.  Exact rational arithmetic stands in for float arithmetic. -/
def bootstrap_data_array {d : Nat} (data : Fin d → ℚ) (H R : Matrix (Fin d) (Fin d) ℚ)
    (permute : Fin d → Fin d) : Fin d → ℚ :=
  Matrix.vecMul data (H + R.submatrix permute id)ᵀ

/-- Embedding of bootstrap_data_voxel with an explicit permutation: the hat
projection data * H^T and the residual term data * R^T are computed
separately, the residual term is indexed by the permutation, and the two are
summed. -/
def bootstrap_data_voxel {d : Nat} (data : Fin d → ℚ) (H R : Matrix (Fin d) (Fin d) ℚ)
    (permute : Fin d → Fin d) : Fin d → ℚ :=
  fun j => Matrix.vecMul data Hᵀ j + Matrix.vecMul data Rᵀ (permute j)

/-- C6: on 1-d data with square H and R of equal shape (enforced by the
types) and an explicit permutation, the voxel path and the array path agree
exactly, and with the identity permutation both return data * (H + R)^T.
Determinism for a fixed explicit permutation is immediate because both
embeddings are functions of their arguments. -/
theorem bootstrap_voxel_eq_array {d : Nat} (data : Fin d → ℚ)
    (H R : Matrix (Fin d) (Fin d) ℚ) (permute : Fin d → Fin d) :
    (∀ j, bootstrap_data_voxel data H R permute j = bootstrap_data_array data H R permute j)
    ∧ ∀ j, bootstrap_data_array data H R id j = Matrix.vecMul data (H + R)ᵀ j := by
  constructor
  · intro j
    simp [bootstrap_data_voxel, bootstrap_data_array, Matrix.vecMul, Matrix.dotProduct,
      Matrix.transpose_apply, Matrix.add_apply, Matrix.submatrix_apply, mul_add,
      Finset.sum_add_distrib]
  · intro j
    simp [bootstrap_data_array, Matrix.submatrix_id_id]

/-- Embedding of ResidualBootstrapWrapper.__getitem__ on one voxel: the full
signal vector is fetched, its DWI sub-vector (selected by the injective
where_dwi index map) is bootstrapped by the voxel path, the bootstrap sample
is clipped to [min_signal, 1], and the clipped values are written back into a
copy of the full vector at the DWI positions (modelled by folding
Function.update over the DWI positions, matching the numpy fancy-index
assignment).  The permutation drawn inside bootstrap_data_voxel is passed
explicitly. -/
def wrapper_getitem {N d : Nat} (signal : Fin N → ℚ) (whereDwi : Fin d → Fin N)
    (H R : Matrix (Fin d) (Fin d) ℚ) (permute : Fin d → Fin d) (minSignal : ℚ) :
    Fin N → ℚ :=
  (List.finRange d).foldl
    (fun s i => Function.update s (whereDwi i)
      (np_clip (bootstrap_data_voxel (fun i2 => signal (whereDwi i2)) H R permute i)
        minSignal 1))
    signal

lemma foldl_update_not_mem {ι κ α : Type} [DecidableEq κ] (l : List ι) (f : ι → κ)
    (g : ι → α) (s : κ → α) (j : κ) (h : ∀ i ∈ l, f i ≠ j) :
    (l.foldl (fun s i => Function.update s (f i) (g i)) s) j = s j := by
  induction l generalizing s with
  | nil => rfl
  | cons a t ih =>
    simp only [List.foldl_cons]
    rw [ih _ fun i hi => h i (List.mem_cons_of_mem a hi)]
    exact Function.update_noteq (h a (List.mem_cons_self a t)).symm _ _

lemma foldl_update_mem {ι κ α : Type} [DecidableEq κ] (l : List ι) (f : ι → κ)
    (g : ι → α) (s : κ → α) (i : ι) (hl : l.Nodup) (hf : Function.Injective f)
    (hi : i ∈ l) :
    (l.foldl (fun s i => Function.update s (f i) (g i)) s) (f i) = g i := by
  induction l generalizing s with
  | nil => cases hi
  | cons a t ih =>
    simp only [List.foldl_cons]
    rcases List.mem_cons.mp hi with rfl | hmem
    · have hne : ∀ x ∈ t, f x ≠ f i := by
        intro x hx hEq
        exact (List.nodup_cons.mp hl).1 (hf hEq ▸ hx)
      rw [foldl_update_not_mem t f g _ (f i) hne, Function.update_same]
    · exact ih _ (List.nodup_cons.mp hl).2 hmem

/-- C7: indexing the bootstrap wrapper returns a vector that holds the
clipped bootstrap value at every DWI position and the original signal value
at every other (b0) position; the underlying signal vector is a parameter of
a pure function, so it is not modified, only the returned copy differs. -/
theorem wrapper_getitem_spec {N d : Nat} (signal : Fin N → ℚ) (whereDwi : Fin d → Fin N)
    (H R : Matrix (Fin d) (Fin d) ℚ) (permute : Fin d → Fin d) (minSignal : ℚ)
    (hinj : Function.Injective whereDwi) :
    (∀ i : Fin d, wrapper_getitem signal whereDwi H R permute minSignal (whereDwi i)
        = np_clip (bootstrap_data_voxel (fun i2 => signal (whereDwi i2)) H R permute i)
            minSignal 1)
    ∧ ∀ j : Fin N, (∀ i : Fin d, whereDwi i ≠ j) →
        wrapper_getitem signal whereDwi H R permute minSignal j = signal j := by
  constructor
  · intro i
    exact foldl_update_mem (List.finRange d) whereDwi _ signal i
      (List.nodup_finRange d) hinj (List.mem_finRange i)
  · intro j hj
    exact foldl_update_not_mem (List.finRange d) whereDwi _ signal j fun i _ => hj i

/-- Witness for wrapper_getitem_spec: two channels, the first is the single
DWI channel; the bootstrap value 2 is clipped to the upper bound 1 and the b0
channel keeps its original value 3. -/
theorem wrapper_getitem_spec_witness :
    (wrapper_getitem (![2, 3] : Fin 2 → ℚ) (fun _ : Fin 1 => (0 : Fin 2)) 1 0 id (1/2)
        ((fun _ : Fin 1 => (0 : Fin 2)) 0)
      = np_clip (bootstrap_data_voxel
          (fun i2 : Fin 1 => (![2, 3] : Fin 2 → ℚ) ((fun _ : Fin 1 => (0 : Fin 2)) i2))
          1 0 id 0) (1/2) 1)
    ∧ wrapper_getitem (![2, 3] : Fin 2 → ℚ) (fun _ : Fin 1 => (0 : Fin 2)) 1 0 id (1/2) 1
      = (![2, 3] : Fin 2 → ℚ) 1 := by
  have h := wrapper_getitem_spec (![2, 3] : Fin 2 → ℚ) (fun _ : Fin 1 => (0 : Fin 2))
    1 0 id (1/2) (fun a b _ => Subsingleton.elim a b)
  exact ⟨h.1 0, h.2 1 (by decide)⟩

/-! ### normalize_data -/

/-- Embedding of normalize_data on one voxel: the copy of the data is clipped
below at min_signal (ndarray.clip with only a lower bound), the mean of the
clipped b0 channels (selected by where_b0) is taken, and the clipped data is
divided by that mean. -/
def normalize_data {N nb : Nat} (data : Fin N → ℚ) (whereB0 : Fin nb → Fin N)
    (minSignal : ℚ) : Fin N → ℚ :=
  fun j => max (data j) minSignal
    / ((∑ i : Fin nb, max (data (whereB0 i)) minSignal) / (nb : ℚ))

/-- Counterexample to C9 as stated: one channel that is its own b0 channel
with constant b0 value c = 1/2 and floor f = 1.  The code clips before taking
the b0 mean, so it divides by max(c, f) = 1 and returns 1, while the claimed
formula clip(signal, f, infinity) / c returns 2. -/
theorem normalize_data_counterexample :
    ¬ (normalize_data (fun _ : Fin 1 => (1 : ℚ)/2) (fun i : Fin 1 => i) 1 0
        = max ((1 : ℚ)/2) 1 / ((1 : ℚ)/2)) := by
  norm_num [normalize_data, Fin.sum_univ_one, max_def]

/-- C9 amended: when every b0 channel of the signal holds the same value c,
the floor satisfies f ≤ c (so that clipping does not move the b0 channels),
and there is at least one b0 channel, normalize_data returns
clip(signal, f, infinity) / c elementwise; in general the divisor is the mean
of the clipped b0 channels, max(c, f) here. -/
theorem normalize_data_const_b0 {N nb : Nat} (data : Fin N → ℚ) (whereB0 : Fin nb → Fin N)
    (c f : ℚ) (hc : ∀ i : Fin nb, data (whereB0 i) = c) (hcf : f ≤ c) (hnb : 0 < nb) :
    ∀ j, normalize_data data whereB0 f j = max (data j) f / c := by
  intro j
  unfold normalize_data
  have hmean : (∑ i : Fin nb, max (data (whereB0 i)) f) = (nb : ℚ) * c := by
    have hone : ∀ i : Fin nb, max (data (whereB0 i)) f = c := by
      intro i
      rw [hc i]
      exact max_eq_left hcf
    rw [Finset.sum_congr rfl fun i _ => hone i]
    simp [Finset.card_univ, mul_comm]
  have hnb2 : (nb : ℚ) ≠ 0 := Nat.cast_ne_zero.mpr hnb.ne'
  rw [hmean, mul_comm, mul_div_assoc, div_self hnb2, mul_one]

/-- Witness for normalize_data_const_b0: a single channel holding 2, which is
its own b0 channel, with floor 1. -/
theorem normalize_data_const_b0_witness :
    normalize_data (fun _ : Fin 1 => (2 : ℚ)) (fun i : Fin 1 => i) 1 0
      = max ((fun _ : Fin 1 => (2 : ℚ)) 0) 1 / 2 :=
  normalize_data_const_b0 (fun _ : Fin 1 => (2 : ℚ)) (fun i : Fin 1 => i) 2 1
    (fun i => rfl) (by norm_num) (by norm_num) 0

/-! ### sf_to_sh and sh_to_sf basis dispatch -/

/-- The three real spherical-harmonic sign conventions implemented by
real_sph_harm, real_sph_harm_mrtrix and real_sph_harm_fibernav.  Their
numerical values come from the external complex harmonic evaluator
(scipy.special.sph_harm) and are outside this embedding; the claim under
proof concerns only which convention is selected and when the name check
fails. -/
inductive ShBasis where
  | dipyDefault
  | mrtrix
  | fibernav
deriving DecidableEq

/-- Embedding of the module-level sph_harm_lookup dictionary: keys None,
"mrtrix" and "fibernav"; dict.get returns None for any other key. -/
def sph_harm_lookup (basisType : Option String) : Option ShBasis :=
  match basisType with
  | none => some ShBasis.dipyDefault
  | some s =>
    if s = "mrtrix" then some ShBasis.mrtrix
    else if s = "fibernav" then some ShBasis.fibernav
    else none

/-- Embedding of the control skeleton of sf_to_sh: first sph_harm_ind_list
(which raises for an odd order), then the basis lookup with its error for an
unknown name, and only then the numeric work (basis matrix, regularized
inverse, product), abstracted as the function compute applied to the selected
convention. -/
def sf_to_sh {γ : Type} (shOrder : Int) (basisType : Option String)
    (compute : ShBasis → γ) : Except String γ :=
  match sph_harm_ind_list shOrder with
  | none => Except.error "sh_order must be an even integer >= 0"
  | some _ =>
    match sph_harm_lookup basisType with
    | none => Except.error " Wrong basis type name "
    | some b => Except.ok (compute b)

/-- Embedding of the control skeleton of sh_to_sf, identical to sf_to_sh up
to the abstracted numeric payload (here sh * B^T instead of sf * invB^T). -/
def sh_to_sf {γ : Type} (shOrder : Int) (basisType : Option String)
    (compute : ShBasis → γ) : Except String γ :=
  match sph_harm_ind_list shOrder with
  | none => Except.error "sh_order must be an even integer >= 0"
  | some _ =>
    match sph_harm_lookup basisType with
    | none => Except.error " Wrong basis type name "
    | some b => Except.ok (compute b)

/-- C8: for an even order, both sf_to_sh and sh_to_sf fail with the basis
error for every name other than None, "mrtrix" and "fibernav", and the
result then does not depend on the numeric payload (no numeric computation
is performed); each of the three valid names selects the corresponding
convention for the basis matrix. -/
theorem basis_dispatch {γ : Type} (shOrder : Int) (h2 : shOrder % 2 = 0) :
    (∀ bt : Option String, bt ≠ none → bt ≠ some "mrtrix" → bt ≠ some "fibernav" →
      ∀ compute compute2 : ShBasis → γ,
        sf_to_sh shOrder bt compute = Except.error " Wrong basis type name "
        ∧ sh_to_sf shOrder bt compute2 = Except.error " Wrong basis type name ")
    ∧ ∀ compute : ShBasis → γ,
        sf_to_sh shOrder none compute = Except.ok (compute ShBasis.dipyDefault)
        ∧ sf_to_sh shOrder (some "mrtrix") compute = Except.ok (compute ShBasis.mrtrix)
        ∧ sf_to_sh shOrder (some "fibernav") compute = Except.ok (compute ShBasis.fibernav)
        ∧ sh_to_sf shOrder none compute = Except.ok (compute ShBasis.dipyDefault)
        ∧ sh_to_sf shOrder (some "mrtrix") compute = Except.ok (compute ShBasis.mrtrix)
        ∧ sh_to_sf shOrder (some "fibernav") compute = Except.ok (compute ShBasis.fibernav) := by
  obtain ⟨p, hp⟩ : ∃ p, sph_harm_ind_list shOrder = some p := by
    unfold sph_harm_ind_list
    rw [if_neg (by omega)]
    exact ⟨_, rfl⟩
  constructor
  · intro bt hn hm hf compute compute2
    have hlook : sph_harm_lookup bt = none := by
      match bt with
      | none => exact absurd rfl hn
      | some s =>
        simp only [sph_harm_lookup]
        rw [if_neg (fun h => hm (by rw [h])), if_neg (fun h => hf (by rw [h]))]
    unfold sf_to_sh sh_to_sf
    rw [hp, hlook]
    exact ⟨rfl, rfl⟩
  · intro compute
    unfold sf_to_sh sh_to_sf
    rw [hp]
    exact ⟨rfl, rfl, rfl, rfl, rfl, rfl⟩

/-- Witness for basis_dispatch at order 4: the unknown name "foo" yields the
basis error in both directions, and the name "mrtrix" selects the mrtrix
convention. -/
theorem basis_dispatch_witness :
    (sf_to_sh 4 (some "foo") (fun _ => (0 : Nat)) = Except.error " Wrong basis type name "
      ∧ sh_to_sf 4 (some "foo") (fun _ => (1 : Nat)) = Except.error " Wrong basis type name ")
    ∧ sf_to_sh 4 (some "mrtrix") (fun b => if b = ShBasis.mrtrix then (1 : Nat) else 0)
      = Except.ok 1 := by
  have h := @basis_dispatch Nat 4 (by decide)
  exact ⟨h.1 (some "foo") (by decide) (by decide) (by decide) _ _,
    (h.2 fun b => if b = ShBasis.mrtrix then (1 : Nat) else 0).2.1⟩

/-! ### lazy_index -/

/-- Result type of lazy_index: either the index array unchanged, or a Python
slice(start, stop, step). -/
inductive LazyIndex where
  | arr (l : List Int)
  | sl (start stop step : Int)
deriving DecidableEq

/-- Embedding of lazy_index on an integer index array (the boolean-mask
branch first converts with nonzero, see lazy_index_bool): a single element
becomes slice(i, i+1); otherwise the unique values of the consecutive
differences are inspected, and only a single nonzero common difference
produces slice(first, last + 1, difference); in every other case the array is
returned as is. -/
def lazy_index (l : List Int) : LazyIndex :=
  if l.length = 1 then LazyIndex.sl (l.headD 0) (l.headD 0 + 1) 1
  else
    let step := np_unique (np_diff l)
    if step.length ≠ 1 ∨ step.headD 0 = 0 then LazyIndex.arr l
    else LazyIndex.sl (l.headD 0) (l.getLastD 0 + 1) (step.headD 0)

/-- numpy nonzero of a 1-d boolean mask: the positions holding True, in
increasing order. -/
def nonzero (mask : List Bool) : List Int :=
  ((List.range mask.length).filter fun i => mask.getD i false).map fun i : Nat => (i : Int)

/-- Embedding of the boolean-mask branch of lazy_index: nonzero first, then
the integer logic. -/
def lazy_index_bool (mask : List Bool) : LazyIndex :=
  lazy_index (nonzero mask)

/-- CPython slice adjustment of the start bound for a sequence of length n:
negative values are shifted by n, then the value is clamped into [0, n] for a
positive step and into [-1, n-1] for a negative step. -/
def pySliceStart (n start step : Int) : Int :=
  if 0 < step then (if start < 0 then max (start + n) 0 else min start n)
  else if start < 0 then max (start + n) (-1) else min start (n - 1)

/-- CPython slice adjustment of the stop bound, identical to the start
adjustment. -/
def pySliceStop (n stop step : Int) : Int :=
  if 0 < step then (if stop < 0 then max (stop + n) 0 else min stop n)
  else if stop < 0 then max (stop + n) (-1) else min stop (n - 1)

/-- Number of indices a slice yields from adjusted bounds lo and hi:
ceil((hi - lo) / step) when that is positive, else zero. -/
def pySliceCount (lo hi step : Int) : Nat :=
  if 0 < step then (if lo < hi then ((hi - lo - 1) / step + 1).toNat else 0)
  else if step < 0 then (if hi < lo then ((lo - hi - 1) / (-step) + 1).toNat else 0)
  else 0

/-- The index sequence lo, lo + step, ... a slice selects from a sequence of
length n. -/
def pySliceIndices (n start stop step : Int) : List Int :=
  (List.range (pySliceCount (pySliceStart n start step) (pySliceStop n stop step) step)).map
    fun i : Nat => pySliceStart n start step + step * (i : Int)

/-- numpy scalar indexing A[x]: a negative position counts from the end.  Out
of range positions would raise in numpy; the equivalence theorems only use in
range positions, and the model returns the default there. -/
def npGet {α : Type} (A : List α) (dflt : α) (x : Int) : α :=
  if x < 0 then A.getD (x + A.length).toNat dflt else A.getD x.toNat dflt

/-- Indexing a list with the result of lazy_index: fancy indexing for the
array case, CPython slice semantics for the slice case. -/
def applyLazy {α : Type} (A : List α) (dflt : α) : LazyIndex → List α
  | LazyIndex.arr l => l.map (npGet A dflt)
  | LazyIndex.sl s e st => (pySliceIndices A.length s e st).map fun i => A.getD i.toNat dflt

/-- Counterexample to C10 as stated: the decreasing index array [3, 1] has
the constant difference -2, so lazy_index turns it into slice(3, 2, -2),
which selects only position 3, while direct indexing selects positions 3 and
1. -/
theorem lazy_index_counterexample :
    applyLazy [(10 : Int), 11, 12, 13] 0 (lazy_index [3, 1])
      ≠ [(3 : Int), 1].map (npGet [(10 : Int), 11, 12, 13] 0) := by
  decide

lemma np_diff_cons_cons (a b : Int) (t : List Int) :
    np_diff (a :: b :: t) = (b - a) :: np_diff (b :: t) := rfl

lemma mem_np_unique {x : Int} {l : List Int} : x ∈ np_unique l ↔ x ∈ l := by
  simp [np_unique, List.mem_dedup, List.mem_insertionSort]

lemma list_length_one_eq {α : Type} (d : α) {l : List α} (h : l.length = 1) :
    l = [l.headD d] := by
  match l with
  | [a] => rfl
  | [] => simp at h
  | a :: b :: t => simp at h

lemma np_diff_nonneg {l : List Int} (h : l.Chain' (· ≤ ·)) : ∀ x ∈ np_diff l, 0 ≤ x := by
  induction l with
  | nil => intro x hx; cases hx
  | cons a t ih =>
    cases t with
    | nil => intro x hx; cases hx
    | cons b t2 =>
      intro x hx
      rw [np_diff_cons_cons] at hx
      rcases List.mem_cons.mp hx with rfl | hx2
      · have hab := (List.chain'_cons.mp h).1
        omega
      · exact ih (List.chain'_cons.mp h).2 x hx2

lemma ap_of_const_diff (st : Int) : ∀ (t : List Int) (a : Int),
    (∀ x ∈ np_diff (a :: t), x = st) →
    a :: t = (List.range (t.length + 1)).map fun i : Nat => a + st * (i : Int) := by
  intro t
  induction t with
  | nil =>
    intro a _
    simp [List.range_succ]
  | cons b t2 ih =>
    intro a h
    have hba : b - a = st := h _ (by rw [np_diff_cons_cons]; exact List.mem_cons_self _ _)
    have ht : b :: t2 = (List.range (t2.length + 1)).map fun i : Nat => b + st * (i : Int) :=
      ih b fun x hx => h x (by rw [np_diff_cons_cons]; exact List.mem_cons_of_mem _ hx)
    have hgoal : a :: b :: t2
        = a :: (List.range (t2.length + 1)).map fun i : Nat => b + st * (i : Int) := by
      rw [← ht]
    rw [hgoal]
    conv_rhs => rw [List.length_cons, List.range_succ_eq_map, List.map_cons, List.map_map]
    congr 1
    · simp
    · apply List.map_congr_left
      intro i _
      simp only [Function.comp_apply]
      have hb2 : b = a + st := by omega
      rw [hb2]
      push_cast
      ring

lemma getLastD_map_range {α : Type} (f : Nat → α) (c : Nat) (d : α) :
    ((List.range (c + 1)).map f).getLastD d = f c := by
  rw [List.range_succ, List.map_append]
  exact List.getLastD_concat _ _ _

lemma lazy_index_cons₂ (a b : Int) (t : List Int) :
    lazy_index (a :: b :: t) =
      if (np_unique (np_diff (a :: b :: t))).length ≠ 1
          ∨ (np_unique (np_diff (a :: b :: t))).headD 0 = 0
      then LazyIndex.arr (a :: b :: t)
      else LazyIndex.sl a ((a :: b :: t).getLastD 0 + 1)
        ((np_unique (np_diff (a :: b :: t))).headD 0) := by
  unfold lazy_index
  rw [if_neg (by simp)]
  rfl

/-- C10 amended: indexing through lazy_index is semantics-preserving for
boolean masks and for nondecreasing arrays of in-range non-negative integer
positions (the cases produced by the callers).  For decreasing arithmetic
index arrays (see lazy_index_counterexample) and for negative positions the
slice conversion changes the selection, so the hypothesis on l is needed. -/
theorem lazy_index_equiv {α : Type} (n : Nat) (A : List α) (dflt : α)
    (hA : A.length = n) :
    (∀ l : List Int, l.Chain' (· ≤ ·) → (∀ x ∈ l, 0 ≤ x ∧ x < (n : Int)) →
      applyLazy A dflt (lazy_index l) = l.map (npGet A dflt))
    ∧ ∀ mask : List Bool, mask.length = n →
      applyLazy A dflt (lazy_index_bool mask) = (nonzero mask).map (npGet A dflt) := by
  have hget : ∀ l : List Int, (∀ x ∈ l, 0 ≤ x) →
      (l.map fun i => A.getD i.toNat dflt) = l.map (npGet A dflt) := by
    intro l hl
    apply List.map_congr_left
    intro x hx
    unfold npGet
    rw [if_neg (not_lt.mpr (hl x hx))]
  have main : ∀ l : List Int, l.Chain' (· ≤ ·) → (∀ x ∈ l, 0 ≤ x ∧ x < (n : Int)) →
      applyLazy A dflt (lazy_index l) = l.map (npGet A dflt) := by
    intro l hch hb
    rcases l with _ | ⟨a, l2⟩
    · rfl
    rcases l2 with _ | ⟨b, t⟩
    · obtain ⟨hx0, hxn⟩ := hb a (List.mem_cons_self a [])
      have hlz : lazy_index [a] = LazyIndex.sl a (a + 1) 1 := by
        unfold lazy_index
        rw [if_pos (show ([a] : List Int).length = 1 from rfl)]
        rfl
      rw [hlz]
      show (pySliceIndices A.length a (a + 1) 1).map (fun i => A.getD i.toNat dflt)
          = [a].map (npGet A dflt)
      have hstart : pySliceStart n a 1 = a := by
        unfold pySliceStart
        rw [if_pos (show (0 : Int) < 1 by norm_num), if_neg (not_lt.mpr hx0)]
        exact min_eq_left (by omega)
      have hstop : pySliceStop n (a + 1) 1 = a + 1 := by
        unfold pySliceStop
        rw [if_pos (show (0 : Int) < 1 by norm_num), if_neg (not_lt.mpr (by omega))]
        exact min_eq_left (by omega)
      have hcount : pySliceCount a (a + 1) 1 = 1 := by
        unfold pySliceCount
        rw [if_pos (show (0 : Int) < 1 by norm_num), if_pos (by omega)]
        omega
      unfold pySliceIndices
      rw [hA, hstart, hstop, hcount]
      have hx0' : ¬ a < 0 := not_lt.mpr hx0
      simp [List.range_succ, npGet, hx0']
    · by_cases harr : (np_unique (np_diff (a :: b :: t))).length ≠ 1
          ∨ (np_unique (np_diff (a :: b :: t))).headD 0 = 0
      · rw [lazy_index_cons₂, if_pos harr]
        rfl
      · rw [lazy_index_cons₂, if_neg harr]
        rw [not_or] at harr
        obtain ⟨hlen1, hst0⟩ := harr
        set st := (np_unique (np_diff (a :: b :: t))).headD 0 with hstdef
        have hU : np_unique (np_diff (a :: b :: t)) = [st] :=
          list_length_one_eq 0 (not_ne_iff.mp hlen1)
        have hall : ∀ x ∈ np_diff (a :: b :: t), x = st := by
          intro x hx
          have hxu : x ∈ np_unique (np_diff (a :: b :: t)) := mem_np_unique.mpr hx
          rw [hU] at hxu
          simpa using hxu
        have hstD : st ∈ np_diff (a :: b :: t) := by
          have hm : st ∈ np_unique (np_diff (a :: b :: t)) := by
            rw [hU]; exact List.mem_cons_self _ _
          exact mem_np_unique.mp hm
        have hst_pos : 0 < st :=
          lt_of_le_of_ne (np_diff_nonneg hch st hstD) (Ne.symm hst0)
        have hap : a :: b :: t
            = (List.range ((b :: t).length + 1)).map fun i : Nat => a + st * (i : Int) :=
          ap_of_const_diff st (b :: t) a hall
        have hlast : (a :: b :: t).getLastD 0 = a + st * ((t.length + 1 : Nat) : Int) := by
          rw [hap]
          simp only [List.length_cons]
          exact getLastD_map_range _ _ _
        obtain ⟨ha0, han⟩ := hb a (List.mem_cons_self _ _)
        have hlast_mem : a + st * ((t.length + 1 : Nat) : Int) ∈ a :: b :: t := by
          rw [hap]
          exact List.mem_map.mpr ⟨t.length + 1, List.mem_range.mpr (by simp), rfl⟩
        obtain ⟨-, hlastn⟩ := hb _ hlast_mem
        have hprod0 : 0 ≤ st * ((t.length + 1 : Nat) : Int) :=
          mul_nonneg hst_pos.le (by positivity)
        rw [hlast]
        show (pySliceIndices A.length a (a + st * ((t.length + 1 : Nat) : Int) + 1) st).map
            (fun i => A.getD i.toNat dflt) = (a :: b :: t).map (npGet A dflt)
        have hstart : pySliceStart n a st = a := by
          unfold pySliceStart
          rw [if_pos hst_pos, if_neg (not_lt.mpr ha0)]
          exact min_eq_left (by linarith)
        have hstop : pySliceStop n (a + st * ((t.length + 1 : Nat) : Int) + 1) st
            = a + st * ((t.length + 1 : Nat) : Int) + 1 := by
          unfold pySliceStop
          rw [if_pos hst_pos, if_neg (not_lt.mpr (by linarith))]
          exact min_eq_left (by linarith)
        have hcount : pySliceCount a (a + st * ((t.length + 1 : Nat) : Int) + 1) st
            = (b :: t).length + 1 := by
          unfold pySliceCount
          rw [if_pos hst_pos, if_pos (by linarith)]
          have he : a + st * ((t.length + 1 : Nat) : Int) + 1 - a - 1
              = st * ((t.length + 1 : Nat) : Int) := by ring
          rw [he, Int.mul_ediv_cancel_left _ hst_pos.ne']
          simp only [List.length_cons]
          omega
        unfold pySliceIndices
        rw [hA, hstart, hstop, hcount, ← hap]
        exact hget _ fun x hx => (hb x hx).1
  refine ⟨main, ?_⟩
  intro mask hm
  unfold lazy_index_bool
  apply main
  · have hpw : (nonzero mask).Pairwise (· < ·) := by
      unfold nonzero
      have hfil : ((List.range mask.length).filter fun i => mask.getD i false).Pairwise
          (fun x y : Nat => x < y) :=
        (List.pairwise_lt_range _).sublist (List.filter_sublist _)
      exact hfil.map _ fun x y hxy => by exact_mod_cast hxy
    exact (hpw.imp fun hxy => le_of_lt hxy).chain'
  · intro x hx
    unfold nonzero at hx
    obtain ⟨i, hi, rfl⟩ := List.mem_map.mp hx
    have hir : i < mask.length := List.mem_range.mp (List.mem_of_mem_filter hi)
    constructor
    · exact Int.natCast_nonneg i
    · exact_mod_cast hm ▸ hir

/-- Witness for lazy_index_equiv: the strided index array [0, 2] becomes
slice(0, 3, 2) and still selects elements 10 and 12 of [10, 11, 12, 13]. -/
theorem lazy_index_equiv_witness :
    applyLazy [(10 : Int), 11, 12, 13] 0 (lazy_index [0, 2]) = [(10 : Int), 12] := by
  have h := (lazy_index_equiv 4 [(10 : Int), 11, 12, 13] 0 rfl).1 [0, 2]
    (List.chain'_cons.mpr ⟨by norm_num, List.chain'_singleton 2⟩) (by decide)
  rw [h]
  decide
